import Mathlib

/-!
Verification of the dependency-graph core of `tpack-modular` (`src/module.ts`).

Modules are identified by natural numbers.  The three relation lists of a
module (`includes`, `imports`, `excludes`) are lists of module ids.  The
recursive traversals of the source (`hasInclude`, `addImportsTo`,
`addExcludesTo`, `resolve`) terminate in the source only because of visited
sets or resolution flags; here they take an explicit fuel argument, and the
theorems quantify over every sufficient fuel.
-/

/-! ## Order compiler: `addImportsTo`, `addExcludesTo`, `getModuleList` -/

mutual
/-- Embeds `Module.addImportsTo(result, processed)` (module.ts:288-297):
depth-first post-order over the `imports` edges of graph `gi`.
`addImportsList` runs the `for (const module of this.imports)` loop. -/
def addImportsTo1 (gi : Nat → List Nat) (fuel self : Nat)
    (result processed : List Nat) : List Nat × List Nat :=
  if self ∈ processed then (result, processed)
  else
    match fuel with
    | 0 => (result, processed)
    | fuel1 + 1 =>
      let rp := addImportsList gi fuel1 (gi self) result (processed ++ [self])
      (rp.1 ++ [self], rp.2)
termination_by (fuel, 0)

/-- The loop body of `addImportsTo`: one recursive call per listed import. -/
def addImportsList (gi : Nat → List Nat) (fuel : Nat) (ms : List Nat)
    (result processed : List Nat) : List Nat × List Nat :=
  match ms with
  | [] => (result, processed)
  | m :: rest =>
    let rp := addImportsTo1 gi fuel m result processed
    addImportsList gi fuel rest rp.1 rp.2
termination_by (fuel, ms.length + 1)
end

mutual
/-- Embeds `Module.addExcludesTo(result, processed)` (module.ts:304-313):
for each `excludes` edge, first the whole import closure of the excluded
module is added (`addImportsTo`), then its own excludes are followed. -/
def addExcludesTo1 (gi ge : Nat → List Nat) (fuel self : Nat)
    (result processed : List Nat) : List Nat × List Nat :=
  if self ∈ processed then (result, processed)
  else
    match fuel with
    | 0 => (result, processed)
    | fuel1 + 1 =>
      addExcludesList gi ge fuel1 (ge self) result (processed ++ [self])
termination_by (fuel, 0)

/-- The loop body of `addExcludesTo`: `module.addImportsTo` then
`module.addExcludesTo` for each listed exclude. -/
def addExcludesList (gi ge : Nat → List Nat) (fuel : Nat) (ms : List Nat)
    (result processed : List Nat) : List Nat × List Nat :=
  match ms with
  | [] => (result, processed)
  | m :: rest =>
    let rp1 := addImportsTo1 gi fuel m result processed
    let rp2 := addExcludesTo1 gi ge fuel m rp1.1 rp1.2
    addExcludesList gi ge fuel rest rp2.1 rp2.2
termination_by (fuel, ms.length + 1)
end

/-- Embeds `Module.getModuleList()` (module.ts:319-328): collect the import
closure, collect the exclusion set seeded with `[this]`, and filter the
former by the latter when the latter is non-empty. -/
def getModuleList (gi ge : Nat → List Nat) (fuel self : Nat) : List Nat :=
  let imports := (addImportsTo1 gi fuel self [] []).1
  let excludes := (addExcludesTo1 gi ge fuel self [] [self]).1
  if excludes.length = 0 then imports
  else imports.filter fun m => !(excludes.contains m)

/-! Unfolding equations used to evaluate the traversals. -/

theorem addImportsTo1_of_mem {gi fuel self result processed}
    (h : self ∈ processed) :
    addImportsTo1 gi fuel self result processed = (result, processed) := by
  rw [addImportsTo1.eq_def]
  simp [h]

theorem addImportsTo1_succ {gi fuel self result processed}
    (h : self ∉ processed) :
    addImportsTo1 gi (fuel + 1) self result processed =
      ((addImportsList gi fuel (gi self) result (processed ++ [self])).1 ++ [self],
       (addImportsList gi fuel (gi self) result (processed ++ [self])).2) := by
  rw [addImportsTo1.eq_def]
  simp [h]

theorem addImportsList_nil {gi fuel result processed} :
    addImportsList gi fuel [] result processed = (result, processed) := by
  rw [addImportsList.eq_def]

theorem addImportsList_cons {gi fuel m rest result processed} :
    addImportsList gi fuel (m :: rest) result processed =
      addImportsList gi fuel rest
        (addImportsTo1 gi fuel m result processed).1
        (addImportsTo1 gi fuel m result processed).2 := by
  rw [addImportsList.eq_def]

theorem addExcludesTo1_of_mem {gi ge fuel self result processed}
    (h : self ∈ processed) :
    addExcludesTo1 gi ge fuel self result processed = (result, processed) := by
  rw [addExcludesTo1.eq_def]
  simp [h]

/-- The exclusion collector of `getModuleList` is seeded with a processed
set that already holds the root, so it returns its inputs unchanged. -/
theorem addExcludesTo1_seeded (gi ge : Nat → List Nat) (fuel self : Nat) :
    addExcludesTo1 gi ge fuel self [] [self] = ([], [self]) :=
  addExcludesTo1_of_mem (List.mem_singleton.mpr rfl)

/-- Claim C2: for every import graph, exclude graph, module and fuel,
`getModuleList` returns exactly the depth-first post-order import closure
computed by `addImportsTo` on a fresh result and processed list, unfiltered:
the exclusion set computed by `addExcludesTo` seeded with `[this]` is always
empty, so the excludes edges never change the returned list. -/
theorem getModuleList_eq_imports (gi ge : Nat → List Nat) (fuel self : Nat) :
    getModuleList gi ge fuel self = (addImportsTo1 gi fuel self [] []).1 ∧
    (addExcludesTo1 gi ge fuel self [] [self]).1 = [] := by
  constructor
  · unfold getModuleList
    rw [addExcludesTo1_seeded]
    simp
  · rw [addExcludesTo1_seeded]

/-! ## Concrete relation graphs for the ordering claims.
Module ids: in C5 `0` is A, `1` is X, `2` is Y; in C6 `0` is A, `1` is B;
in the exclusion scenario `0` is A, `1` is B, `2` is C. -/

/-- A graph with no edges at all (used where a relation is empty). -/
def noEdges : Nat → List Nat := fun _ => []

/-- Imports for the order-stability scenario: A imports [X, Y], X imports [Y]. -/
def giStable : Nat → List Nat := fun n =>
  if n = 0 then [1, 2] else if n = 1 then [2] else []

/-- Imports for the cycle scenario: A imports [B], B imports [A]. -/
def giCycle : Nat → List Nat := fun n =>
  if n = 0 then [1] else if n = 1 then [0] else []

/-- Imports for the exclusion scenario: A imports [B], B imports [C]. -/
def giExcl : Nat → List Nat := fun n =>
  if n = 0 then [1] else if n = 1 then [2] else []

/-- Excludes for the exclusion scenario: A excludes [B]. -/
def geExcl : Nat → List Nat := fun n => if n = 0 then [1] else []

/-- Claim C5: with A importing [X, Y] and X importing [Y], `getModuleList`
on A returns exactly [Y, X, A] for every sufficient fuel: imports are
recursed into first in list order and the module itself appended after. -/
theorem getModuleList_order_stability (fuel : Nat) :
    getModuleList giStable noEdges (fuel + 3) 0 = [2, 1, 0] := by
  simp [getModuleList, addImportsTo1, addImportsList, addExcludesTo1,
    addExcludesList, giStable, noEdges]

/-- Claim C6: with A importing [B] and B importing [A] (an import cycle),
`getModuleList` on A returns [B, A]: each module exactly once, B first. -/
theorem getModuleList_cycle_safe (fuel : Nat) :
    getModuleList giCycle noEdges (fuel + 2) 0 = [1, 0] := by
  simp [getModuleList, addImportsTo1, addImportsList, addExcludesTo1,
    addExcludesList, addImportsTo1_of_mem, giCycle, noEdges]

/-- Claim C1, evaluated at the failing input: with A importing B, B
importing C and A excluding B, `getModuleList` on A returns [C, B, A],
which still contains B and C — the exclusion never takes effect because
`addExcludesTo` is seeded with a processed set already holding A. -/
theorem getModuleList_exclusion_ineffective (fuel : Nat) :
    getModuleList giExcl geExcl (fuel + 3) 0 = [2, 1, 0] ∧
    1 ∈ getModuleList giExcl geExcl (fuel + 3) 0 ∧
    2 ∈ getModuleList giExcl geExcl (fuel + 3) 0 := by
  have h : getModuleList giExcl geExcl (fuel + 3) 0 = [2, 1, 0] := by
    simp [getModuleList, addImportsTo1, addImportsList, addExcludesTo1,
      addExcludesList, giExcl, geExcl]
  refine ⟨h, ?_, ?_⟩ <;> rw [h] <;> decide

/-! ## Contain relation: `hasInclude` and `include` -/

/-- Embeds `Module.hasInclude(module)` (module.ts:221-231): true when
`target` equals `self`, else when some entry of `self`'s includes list
recursively reaches `target`.  The source recursion is unbounded and only
terminates because the includes relation is kept acyclic; `fuel` bounds
the recursion depth here. -/
def hasIncludeF (g : Nat → List Nat) : Nat → Nat → Nat → Bool
  | 0, self, target => target == self
  | fuel + 1, self, target =>
    target == self || (g self).any fun i => hasIncludeF g fuel i target

/-- Appending `m` to the includes list of `t` (the mutation
`this.includes.push(module)`). -/
def addIncludeEdge (g : Nat → List Nat) (t m : Nat) : Nat → List Nat :=
  fun x => if x = t then g x ++ [m] else g x

/-- Embeds `Module.include(module)` (module.ts:238-249) on module `t` with
argument `m`: if `m.hasInclude(t)` the call returns false without mutation,
otherwise `m` is appended to `t`'s includes list and the call returns true. -/
def includeStep (g : Nat → List Nat) (fuel t m : Nat) : (Nat → List Nat) × Bool :=
  if hasIncludeF g fuel m t then (g, false)
  else (addIncludeEdge g t m, true)

/-- The initial state: every module has an empty includes list. -/
def emptyIncludes : Nat → List Nat := fun _ => []

/-- Runs a sequence of `include` calls: each pair `(t, m)` is the call
`t.include(m)`, with recursion depth `n` available to `hasInclude`. -/
def runIncludes (n : Nat) (g : Nat → List Nat) : List (Nat × Nat) → (Nat → List Nat)
  | [] => g
  | c :: rest => runIncludes n (includeStep g n c.1 c.2).1 rest

/-- `chain g a l b`: the vertices of `l` form a walk of edges of `g`
starting at `a` and ending at `b` (`l` lists the vertices after `a`). -/
def chain (g : Nat → List Nat) : Nat → List Nat → Nat → Prop
  | a, [], b => a = b
  | a, c :: l, b => c ∈ g a ∧ chain g c l b

/-- Reachability along the includes edges (reflexive: the empty walk). -/
def Reaches (g : Nat → List Nat) (a b : Nat) : Prop := ∃ l, chain g a l b

/-- No module is reachable from itself through a non-empty walk. -/
def Acyclic (g : Nat → List Nat) : Prop := ∀ v l, chain g v l v → l = []

/-- Every edge target is below `n`. -/
def BoundedG (g : Nat → List Nat) (n : Nat) : Prop := ∀ x y, y ∈ g x → y < n

theorem chain_append {g : Nat → List Nat} {b c : Nat} :
    ∀ (l1 : List Nat) (a : Nat) (l2 : List Nat), chain g a l1 b →
      chain g b l2 c → chain g a (l1 ++ l2) c := by
  intro l1
  induction l1 with
  | nil =>
    intro a l2 h1 h2
    have ha : a = b := h1
    rw [List.nil_append, ha]
    exact h2
  | cons x xs ih =>
    intro a l2 h1 h2
    obtain ⟨hx, hrest⟩ := h1
    exact ⟨hx, ih x l2 hrest h2⟩

theorem reaches_refl (g : Nat → List Nat) (a : Nat) : Reaches g a a := ⟨[], rfl⟩

theorem reaches_trans {g : Nat → List Nat} {a b c : Nat}
    (h1 : Reaches g a b) (h2 : Reaches g b c) : Reaches g a c := by
  obtain ⟨l1, hc1⟩ := h1
  obtain ⟨l2, hc2⟩ := h2
  exact ⟨l1 ++ l2, chain_append l1 a l2 hc1 hc2⟩

theorem reaches_cons {g : Nat → List Nat} {a c b : Nat}
    (hc : c ∈ g a) (h : Reaches g c b) : Reaches g a b := by
  obtain ⟨l, hch⟩ := h
  exact ⟨c :: l, hc, hch⟩

/-- Dropping the walk prefix before a listed vertex. -/
theorem chain_drop {g : Nat → List Nat} {x b : Nat} {t : List Nat} :
    ∀ (s : List Nat) (a : Nat), chain g a (s ++ x :: t) b → chain g x t b := by
  intro s
  induction s with
  | nil => intro a h; exact h.2
  | cons y ys ih => intro a h; exact ih y h.2

/-- Any walk can be replaced by a duplicate-free walk over the same
vertices (needed to bound the recursion depth of `hasInclude`). -/
theorem chain_simple {g : Nat → List Nat} {b : Nat} :
    ∀ (l : List Nat) (a : Nat), chain g a l b →
      ∃ l', chain g a l' b ∧ (a :: l').Nodup ∧ l' ⊆ l := by
  suffices h : ∀ (n : Nat) (l : List Nat) (a : Nat), l.length ≤ n →
      chain g a l b → ∃ l', chain g a l' b ∧ (a :: l').Nodup ∧ l' ⊆ l by
    intro l a hc
    exact h l.length l a le_rfl hc
  intro n
  induction n with
  | zero =>
    intro l a hlen hc
    rw [List.length_eq_zero.mp (Nat.le_zero.mp hlen)] at hc ⊢
    exact ⟨[], hc, by simp, by simp⟩
  | succ n ih =>
    intro l a hlen hc
    by_cases ha : a ∈ l
    · obtain ⟨s, t, rfl⟩ := List.append_of_mem ha
      have ht : chain g a t b := chain_drop s a hc
      have hlt : t.length ≤ n := by
        simp only [List.length_append, List.length_cons] at hlen
        omega
      obtain ⟨l', h1, h2, h3⟩ := ih t a hlt ht
      exact ⟨l', h1, h2, fun x hx => by
        have := h3 hx
        simp only [List.mem_append, List.mem_cons]
        right; right; exact this⟩
    · cases l with
      | nil => exact ⟨[], hc, by simp, by simp⟩
      | cons c rest =>
        obtain ⟨hc1, hc2⟩ := hc
        have hlt : rest.length ≤ n := by
          simp only [List.length_cons] at hlen
          omega
        obtain ⟨l', h1, h2, h3⟩ := ih rest c hlt hc2
        refine ⟨c :: l', ⟨hc1, h1⟩, ?_, List.cons_subset_cons c h3⟩
        rw [List.nodup_cons]
        refine ⟨?_, h2⟩
        intro hmem
        rcases List.mem_cons.mp hmem with heq | hl'
        · exact ha (heq ▸ List.mem_cons_self c rest)
        · exact ha (List.mem_cons_of_mem c (h3 hl'))

/-- All vertices of a walk are edge targets, hence below the bound. -/
theorem chain_lt {g : Nat → List Nat} {n b : Nat} (hB : BoundedG g n) :
    ∀ (l : List Nat) (a : Nat), chain g a l b → ∀ x ∈ l, x < n := by
  intro l
  induction l with
  | nil => intro a _ x hx; cases hx
  | cons c rest ih =>
    intro a h x hx
    rcases List.mem_cons.mp hx with heq | hr
    · exact heq ▸ hB a c h.1
    · exact ih c h.2 x hr

/-- A duplicate-free list of naturals below `n` has length at most `n`. -/
theorem nodup_length_le {l : List Nat} {n : Nat} (hnd : l.Nodup)
    (hlt : ∀ x ∈ l, x < n) : l.length ≤ n := by
  have hsub : l.toFinset ⊆ Finset.range n := by
    intro x hx
    rw [Finset.mem_range]
    exact hlt x (List.mem_toFinset.mp hx)
  have := Finset.card_le_card hsub
  rw [List.toFinset_card_of_nodup hnd, Finset.card_range] at this
  exact this

/-- `hasInclude` only answers true when `target` is reachable from `self`. -/
theorem hasIncludeF_sound {g : Nat → List Nat} {target : Nat} :
    ∀ (fuel self : Nat), hasIncludeF g fuel self target = true →
      Reaches g self target := by
  intro fuel
  induction fuel with
  | zero =>
    intro self h
    have : target = self := by simpa [hasIncludeF] using h
    exact this ▸ reaches_refl g self
  | succ n ih =>
    intro self h
    simp only [hasIncludeF, Bool.or_eq_true, beq_iff_eq, List.any_eq_true] at h
    rcases h with heq | ⟨i, hi, hrec⟩
    · exact heq ▸ reaches_refl g self
    · exact reaches_cons hi (ih i hrec)

/-- With fuel at least the walk length, `hasInclude` finds the walk. -/
theorem hasIncludeF_complete {g : Nat → List Nat} {target : Nat} :
    ∀ (l : List Nat) (self fuel : Nat), chain g self l target →
      l.length ≤ fuel → hasIncludeF g fuel self target = true := by
  intro l
  induction l with
  | nil =>
    intro self fuel hch _
    have hst : self = target := hch
    cases fuel <;> simp [hasIncludeF, hst]
  | cons c rest ih =>
    intro self fuel hch hlen
    obtain ⟨hc, hrest⟩ := hch
    match fuel with
    | 0 => simp at hlen
    | fuel1 + 1 =>
      simp only [hasIncludeF, Bool.or_eq_true, beq_iff_eq, List.any_eq_true]
      right
      refine ⟨c, hc, ih c fuel1 hrest ?_⟩
      simpa using Nat.succ_le_succ_iff.mp hlen

/-- On a graph whose edges stay below `n`, `hasInclude` with fuel `n` decides
reachability exactly (the source relies on this recursion terminating). -/
theorem hasIncludeF_iff {g : Nat → List Nat} {n a b : Nat}
    (hB : BoundedG g n) (ha : a < n) :
    hasIncludeF g n a b = true ↔ Reaches g a b := by
  constructor
  · exact hasIncludeF_sound n a
  · rintro ⟨l, hch⟩
    obtain ⟨l', h1, h2, _⟩ := chain_simple l a hch
    have hl't : ∀ x ∈ l', x < n := chain_lt hB l' a h1
    have hall : ∀ x ∈ a :: l', x < n := by
      intro x hx
      rcases List.mem_cons.mp hx with heq | hm
      · exact heq ▸ ha
      · exact hl't x hm
    have hlen : (a :: l').length ≤ n := nodup_length_le h2 hall
    exact hasIncludeF_complete l' a n h1 (by simp at hlen; omega)

theorem mem_addIncludeEdge {g : Nat → List Nat} {t m x y : Nat} :
    y ∈ addIncludeEdge g t m x ↔ y ∈ g x ∨ (x = t ∧ y = m) := by
  unfold addIncludeEdge
  by_cases hx : x = t <;> simp [hx]

/-- A walk in the extended graph either avoids the new edge (and is a walk
in the old graph) or decomposes around a use of the new edge `t → m`. -/
theorem chain_addIncludeEdge {g : Nat → List Nat} {t m b : Nat} :
    ∀ (l : List Nat) (a : Nat), chain (addIncludeEdge g t m) a l b →
      Reaches g a b ∨ (Reaches g a t ∧ Reaches g m b) := by
  intro l
  induction l with
  | nil =>
    intro a h
    exact Or.inl (h ▸ reaches_refl g a)
  | cons c rest ih =>
    intro a h
    obtain ⟨hc, hrest⟩ := h
    rcases ih c hrest with hcb | ⟨hct, hmb⟩ <;>
      rcases mem_addIncludeEdge.mp hc with hold | ⟨rfl, rfl⟩
    · exact Or.inl (reaches_cons hold hcb)
    · exact Or.inr ⟨reaches_refl g a, hcb⟩
    · exact Or.inr ⟨reaches_cons hold hct, hmb⟩
    · exact Or.inr ⟨reaches_refl g a, hmb⟩

/-- Non-empty version of `chain_addIncludeEdge`: a non-empty walk of the
extended graph yields a non-empty old walk or passes through the new edge. -/
theorem chain_addIncludeEdge_ne {g : Nat → List Nat} {t m b c : Nat}
    {rest : List Nat} {a : Nat}
    (h : chain (addIncludeEdge g t m) a (c :: rest) b) :
    (∃ l1, l1 ≠ [] ∧ chain g a l1 b) ∨ (Reaches g a t ∧ Reaches g m b) := by
  obtain ⟨hc, hrest⟩ := h
  rcases chain_addIncludeEdge rest c hrest with hcb | ⟨hct, hmb⟩ <;>
    rcases mem_addIncludeEdge.mp hc with hold | ⟨rfl, rfl⟩
  · obtain ⟨l2, hch2⟩ := hcb
    exact Or.inl ⟨c :: l2, List.cons_ne_nil c l2, hold, hch2⟩
  · exact Or.inr ⟨reaches_refl g a, hcb⟩
  · exact Or.inr ⟨reaches_cons hold hct, hmb⟩
  · exact Or.inr ⟨reaches_refl g a, hmb⟩

/-- Adding the edge `t → m` keeps the graph acyclic when `t` is not already
reachable from `m` (this is exactly what `include` checks). -/
theorem acyclic_addIncludeEdge {g : Nat → List Nat} {t m : Nat}
    (hA : Acyclic g) (hR : ¬ Reaches g m t) : Acyclic (addIncludeEdge g t m) := by
  intro v l hch
  cases l with
  | nil => rfl
  | cons c rest =>
    exfalso
    rcases chain_addIncludeEdge_ne hch with ⟨l1, hne, hch1⟩ | ⟨hvt, hmv⟩
    · exact hne (hA v l1 hch1)
    · exact hR (reaches_trans hmv hvt)

theorem bounded_addIncludeEdge {g : Nat → List Nat} {t m n : Nat}
    (hB : BoundedG g n) (hm : m < n) : BoundedG (addIncludeEdge g t m) n := by
  intro x y hy
  rcases mem_addIncludeEdge.mp hy with hold | ⟨_, rfl⟩
  · exact hB x y hold
  · exact hm

/-- One `include` call on an acyclic bounded graph: a call closing a cycle
returns false and leaves the graph untouched; otherwise the edge is added,
true is returned, and acyclicity together with boundedness is preserved. -/
theorem includeStep_spec {g : Nat → List Nat} {n t m : Nat}
    (hA : Acyclic g) (hB : BoundedG g n) (hm : m < n) :
    (Reaches g m t → includeStep g n t m = (g, false)) ∧
    (¬ Reaches g m t →
      includeStep g n t m = (addIncludeEdge g t m, true) ∧
      Acyclic (addIncludeEdge g t m) ∧ BoundedG (addIncludeEdge g t m) n) := by
  constructor
  · intro hR
    unfold includeStep
    rw [if_pos ((hasIncludeF_iff hB hm).mpr hR)]
  · intro hR
    have hfalse : hasIncludeF g n m t ≠ true := fun h =>
      hR ((hasIncludeF_iff hB hm).mp h)
    refine ⟨?_, acyclic_addIncludeEdge hA hR, bounded_addIncludeEdge hB hm⟩
    unfold includeStep
    rw [if_neg hfalse]

/-- The acyclicity and boundedness invariant survives any call sequence. -/
theorem runIncludes_inv {n : Nat} :
    ∀ (calls : List (Nat × Nat)) (g : Nat → List Nat), Acyclic g →
      BoundedG g n → (∀ c ∈ calls, c.1 < n ∧ c.2 < n) →
      Acyclic (runIncludes n g calls) ∧ BoundedG (runIncludes n g calls) n := by
  intro calls
  induction calls with
  | nil =>
    intro g hA hB _
    exact ⟨hA, hB⟩
  | cons c rest ih =>
    intro g hA hB hc
    have hcm : c.2 < n := (hc c (List.mem_cons_self c rest)).2
    have hrest : ∀ d ∈ rest, d.1 < n ∧ d.2 < n :=
      fun d hd => hc d (List.mem_cons_of_mem c hd)
    have hrun : runIncludes n g (c :: rest) =
        runIncludes n (includeStep g n c.1 c.2).1 rest := by
      rw [runIncludes]
    rw [hrun]
    by_cases hR : Reaches g c.2 c.1
    · have := (includeStep_spec hA hB hcm).1 hR
      rw [this]
      exact ih g hA hB hrest
    · obtain ⟨heq, hA2, hB2⟩ := (includeStep_spec hA hB hcm).2 hR
      rw [heq]
      exact ih (addIncludeEdge g c.1 c.2) hA2 hB2 hrest

theorem acyclic_emptyIncludes : Acyclic emptyIncludes := by
  intro v l hch
  cases l with
  | nil => rfl
  | cons c rest => exact absurd hch.1 (List.not_mem_nil c)

theorem bounded_emptyIncludes (n : Nat) : BoundedG emptyIncludes n := by
  intro x y hy
  exact absurd hy (List.not_mem_nil y)

/-- Claim C3: for every sequence of `include` calls starting from modules
with empty includes lists, no module is ever reachable from itself through
a non-empty includes walk; in the reached state, a call `t.include(m)` with
`t` reachable from `m` returns false and leaves the graph unchanged, and a
successful call appends `m` to `t`'s includes list and returns true. -/
theorem include_keeps_acyclic (n : Nat) (calls : List (Nat × Nat))
    (hc : ∀ c ∈ calls, c.1 < n ∧ c.2 < n) :
    Acyclic (runIncludes n emptyIncludes calls) ∧
    ∀ t m, t < n → m < n →
      (Reaches (runIncludes n emptyIncludes calls) m t →
        includeStep (runIncludes n emptyIncludes calls) n t m =
          (runIncludes n emptyIncludes calls, false)) ∧
      (¬ Reaches (runIncludes n emptyIncludes calls) m t →
        includeStep (runIncludes n emptyIncludes calls) n t m =
          (addIncludeEdge (runIncludes n emptyIncludes calls) t m, true)) := by
  obtain ⟨hA, hB⟩ :=
    runIncludes_inv calls emptyIncludes acyclic_emptyIncludes
      (bounded_emptyIncludes n) hc
  refine ⟨hA, fun t m _ hm => ⟨(includeStep_spec hA hB hm).1, fun hR =>
    ((includeStep_spec hA hB hm).2 hR).1⟩⟩

/-- Witness for C3: after `0.include(1)` succeeds, the graph is acyclic and
the cycle-closing call `1.include(0)` is refused without mutation. -/
theorem include_keeps_acyclic_witness :
    Acyclic (runIncludes 2 emptyIncludes [(0, 1)]) ∧
    includeStep (runIncludes 2 emptyIncludes [(0, 1)]) 2 1 0 =
      (runIncludes 2 emptyIncludes [(0, 1)], false) := by
  have h := include_keeps_acyclic 2 [(0, 1)] (by decide)
  refine ⟨h.1, (h.2 1 0 (by decide) (by decide)).1 ?_⟩
  refine ⟨[1], ?_, rfl⟩
  show (1 : Nat) ∈ runIncludes 2 emptyIncludes [(0, 1)] 0
  have : runIncludes 2 emptyIncludes [(0, 1)] 0 = [1] := by
    simp [runIncludes, includeStep, hasIncludeF, emptyIncludes, addIncludeEdge]
  rw [this]
  decide

/-! ## Module state, relation edges and the resolver -/

/-- The relation-building callbacks registered in the `Module` constructor
(module.ts:53-70): each skips a null target and otherwise adds an import
edge or an exclude edge for its owner. -/
inductive Callback where
  | importCb : Callback
  | excludeCb : Callback
deriving DecidableEq

/-- One pending dependency declaration (an entry of `requires`): an optional
target identity and the callback fired once the target is resolved. -/
structure Req where
  target : Option String
  cb : Callback
deriving DecidableEq

/-- The mutable per-module state of `Module`: identity paths, options
handle, the `resolved` flag, the pending declarations (absent once shed),
the source-file reference (absent once shed), and the relation lists. -/
structure ModState where
  srcPath : Option String
  destPath : Option String
  options : Nat
  resolved : Bool
  requires : Option (List Req)
  file : Option Nat
  includes : List Nat
  imports : List Nat
  excludes : List Nat
deriving DecidableEq

/-- The whole system: module states indexed by module id, plus the
orchestrator's path-to-module map (`packer.getModuleFromPath`, assumed
total after a prior `ensure` pass). -/
structure PackerState where
  modules : Nat → ModState
  pathMap : String → Nat

/-- Record of one callback invocation: the owning module and the argument
the callback received (`none` is the null module argument). -/
abbrev CbEvent := Nat × Option Nat

/-- Replace the state of module `i` by `f` of it. -/
def updateMod (st : PackerState) (i : Nat) (f : ModState → ModState) :
    PackerState :=
  { st with modules := fun x => if x = i then f (st.modules x) else st.modules x }

/-- Embeds `Module.import(module)` (module.ts:255-265) on owner `o`: a
self-edge is silently dropped, otherwise `m` is appended to `imports`. -/
def doImport (st : PackerState) (o m : Nat) : PackerState :=
  if m = o then st
  else updateMod st o fun s => { s with imports := s.imports ++ [m] }

/-- Embeds `Module.exclude(module)` (module.ts:271-281) on owner `o`: a
self-edge is silently dropped, otherwise `m` is appended to `excludes`. -/
def doExclude (st : PackerState) (o m : Nat) : PackerState :=
  if m = o then st
  else updateMod st o fun s => { s with excludes := s.excludes ++ [m] }

/-- Runs a constructor-registered callback: with a null argument both
callbacks do nothing (`if (module) ...`), otherwise they add their edge. -/
def runCallback (st : PackerState) (o : Nat) (c : Callback)
    (arg : Option Nat) : PackerState :=
  match arg with
  | none => st
  | some m =>
    match c with
    | Callback.importCb => doImport st o m
    | Callback.excludeCb => doExclude st o m

/-- The truthiness test `if (req[0])` of module.ts:132: an absent identity
and the empty string are both falsy. -/
def isPresent : Option String → Bool
  | none => false
  | some s => !s.isEmpty

/-- `this.resolved = true` (module.ts:128). -/
def setResolved (st : PackerState) (m : Nat) : PackerState :=
  updateMod st m fun s => { s with resolved := true }

/-- `delete this.requires; delete this.file` (module.ts:142-143). -/
def shedState (st : PackerState) (m : Nat) : PackerState :=
  updateMod st m fun s => { s with requires := none, file := none }

mutual
/-- Embeds `Module.resolve()` (module.ts:122-144): return immediately when
already resolved, otherwise set `resolved` first, process every pending
declaration in order, then shed `requires` and `file`.  Also returns the
list of callback invocations performed. -/
def resolveModule (fuel : Nat) (st : PackerState) (m : Nat) :
    PackerState × List CbEvent :=
  if (st.modules m).resolved then (st, [])
  else
    match fuel with
    | 0 => (st, [])
    | fuel1 + 1 =>
      let rp := processReqs fuel1 (setResolved st m) m
        ((st.modules m).requires.getD [])
      (shedState rp.1 m, rp.2)
termination_by (fuel, 0, 0)

/-- One iteration of the `for (const req of this.requires)` loop of
`resolve`: a declaration with a present identity resolves the target module
recursively and fires the callback with it; otherwise the callback fires
with the null argument. -/
def processOne (fuel : Nat) (st : PackerState) (o : Nat) (r : Req) :
    PackerState × List CbEvent :=
  if isPresent r.target then
    let tid := st.pathMap (r.target.getD "")
    let rp := resolveModule fuel st tid
    (runCallback rp.1 o r.cb (some tid), rp.2 ++ [(o, some tid)])
  else (runCallback st o r.cb none, [(o, none)])
termination_by (fuel, 1, 0)

/-- The whole declaration loop of `resolve`, in declaration order. -/
def processReqs (fuel : Nat) (st : PackerState) (o : Nat) (rs : List Req) :
    PackerState × List CbEvent :=
  match rs with
  | [] => (st, [])
  | r :: rest =>
    let rp1 := processOne fuel st o r
    let rp2 := processReqs fuel rp1.1 o rest
    (rp2.1, rp1.2 ++ rp2.2)
termination_by (fuel, 2, rs.length)
end

/-- Embeds `Module.require(path, callback)` (module.ts:102-105): the debug
assertion `console.assert(!this.resolved)` rejects a declaration made after
resolution (and `requires` has been deleted then, so the push cannot
succeed either); otherwise the declaration is appended. -/
def requireOp (st : PackerState) (m : Nat) (t : Option String)
    (c : Callback) : Except Unit PackerState :=
  if (st.modules m).resolved then Except.error ()
  else
    match (st.modules m).requires with
    | none => Except.error ()
    | some rs =>
      Except.ok (updateMod st m fun s => { s with requires := some (rs ++ [⟨t, c⟩]) })

/-! ## Preservation through the resolver -/

theorem updateMod_modules {st : PackerState} {i : Nat} {f : ModState → ModState}
    {x : Nat} :
    ((updateMod st i f).modules x) =
      if x = i then f (st.modules x) else st.modules x := rfl

/-- Unfolding `resolve` on an already-resolved module: immediate return,
no state change, no callback fired. -/
theorem resolveModule_of_resolved {fuel : Nat} {st : PackerState} {m : Nat}
    (h : (st.modules m).resolved = true) :
    resolveModule fuel st m = (st, []) := by
  rw [resolveModule.eq_def]
  simp [h]

/-- Unfolding `resolve` on an unresolved module with fuel available. -/
theorem resolveModule_succ {fuel : Nat} {st : PackerState} {m : Nat}
    (h : (st.modules m).resolved = false) :
    resolveModule (fuel + 1) st m =
      ((shedState (processReqs fuel (setResolved st m) m
          ((st.modules m).requires.getD [])).1 m),
       (processReqs fuel (setResolved st m) m
          ((st.modules m).requires.getD [])).2) := by
  rw [resolveModule.eq_def]
  simp [h]

theorem processReqs_nil {fuel : Nat} {st : PackerState} {o : Nat} :
    processReqs fuel st o [] = (st, []) := by
  rw [processReqs.eq_def]

theorem processReqs_cons {fuel : Nat} {st : PackerState} {o : Nat} {r : Req}
    {rest : List Req} :
    processReqs fuel st o (r :: rest) =
      ((processReqs fuel (processOne fuel st o r).1 o rest).1,
       (processOne fuel st o r).2 ++
         (processReqs fuel (processOne fuel st o r).1 o rest).2) := by
  rw [processReqs.eq_def]

theorem processOne_present {fuel : Nat} {st : PackerState} {o : Nat} {r : Req}
    (h : isPresent r.target = true) :
    processOne fuel st o r =
      (runCallback (resolveModule fuel st (st.pathMap (r.target.getD ""))).1
         o r.cb (some (st.pathMap (r.target.getD ""))),
       (resolveModule fuel st (st.pathMap (r.target.getD ""))).2 ++
         [(o, some (st.pathMap (r.target.getD "")))]) := by
  rw [processOne.eq_def]
  simp [h]

theorem processOne_absent {fuel : Nat} {st : PackerState} {o : Nat} {r : Req}
    (h : isPresent r.target = false) :
    processOne fuel st o r = (runCallback st o r.cb none, [(o, none)]) := by
  rw [processOne.eq_def]
  simp [h]

/-- Master preservation: any binary relation on states that is reflexive,
transitive, and preserved by each primitive mutation of the resolver
(setting the flag, shedding, firing a callback) is preserved by `resolve`
as a whole. -/
theorem resolve_preserves (P : PackerState → PackerState → Prop)
    (Prefl : ∀ s, P s s)
    (Ptrans : ∀ a b c, P a b → P b c → P a c)
    (Pset : ∀ st m, P st (setResolved st m))
    (Pshed : ∀ st m, P st (shedState st m))
    (Pcb : ∀ st o c arg, P st (runCallback st o c arg)) :
    ∀ fuel,
      (∀ st m, P st (resolveModule fuel st m).1) ∧
      (∀ st o r, P st (processOne fuel st o r).1) ∧
      (∀ st o rs, P st (processReqs fuel st o rs).1) := by
  have hOne : ∀ fuel, (∀ st m, P st (resolveModule fuel st m).1) →
      ∀ st o r, P st (processOne fuel st o r).1 := by
    intro fuel hm st o r
    by_cases h : isPresent r.target = true
    · rw [processOne_present h]
      show P st (runCallback
        (resolveModule fuel st (st.pathMap (r.target.getD ""))).1 o r.cb
        (some (st.pathMap (r.target.getD ""))))
      exact Ptrans _ _ _ (hm st _) (Pcb _ _ _ _)
    · rw [processOne_absent (Bool.of_not_eq_true h)]
      show P st (runCallback st o r.cb none)
      exact Pcb st o r.cb none
  have hReqs : ∀ fuel, (∀ st o r, P st (processOne fuel st o r).1) →
      ∀ rs st o, P st (processReqs fuel st o rs).1 := by
    intro fuel ho rs
    induction rs with
    | nil =>
      intro st o
      rw [processReqs_nil]
      exact Prefl st
    | cons r rest ih =>
      intro st o
      rw [processReqs_cons]
      show P st (processReqs fuel (processOne fuel st o r).1 o rest).1
      exact Ptrans _ _ _ (ho st o r) (ih _ o)
  intro fuel
  induction fuel with
  | zero =>
    have hm : ∀ st m, P st (resolveModule 0 st m).1 := by
      intro st m
      by_cases h : (st.modules m).resolved = true
      · rw [resolveModule_of_resolved h]
        exact Prefl st
      · rw [resolveModule.eq_def]
        simp only [Bool.not_eq_true] at h
        simp [h, Prefl]
    exact ⟨hm, hOne 0 hm, fun st o rs => hReqs 0 (hOne 0 hm) rs st o⟩
  | succ n ihn =>
    have hm : ∀ st m, P st (resolveModule (n + 1) st m).1 := by
      intro st m
      by_cases h : (st.modules m).resolved = true
      · rw [resolveModule_of_resolved h]
        exact Prefl st
      · rw [resolveModule_succ (Bool.of_not_eq_true h)]
        show P st (shedState (processReqs n (setResolved st m) m
          ((st.modules m).requires.getD [])).1 m)
        refine Ptrans _ _ _ (Ptrans _ _ _ (Pset st m) ?_) (Pshed _ _)
        exact hReqs n ihn.2.1 _ _ _
    exact ⟨hm, hOne _ hm, fun st o rs => hReqs _ (hOne _ hm) rs st o⟩

theorem setResolved_modules {st : PackerState} {m x : Nat} :
    ((setResolved st m).modules x) =
      if x = m then { st.modules x with resolved := true }
      else st.modules x := rfl

theorem shedState_modules {st : PackerState} {m x : Nat} :
    ((shedState st m).modules x) =
      if x = m then { st.modules x with requires := none, file := none }
      else st.modules x := rfl

/-- A fired callback only ever appends to the `imports` or `excludes` list
of its owner; every other field of every module is untouched. -/
theorem runCallback_modules (st : PackerState) (o : Nat) (c : Callback)
    (arg : Option Nat) (x : Nat) :
    ∃ ti te, ((runCallback st o c arg).modules x) =
      { st.modules x with imports := (st.modules x).imports ++ ti,
                          excludes := (st.modules x).excludes ++ te } := by
  have hid : ∀ s : ModState,
      s = { s with imports := s.imports ++ [], excludes := s.excludes ++ [] } := by
    intro s
    simp
  cases arg with
  | none => exact ⟨[], [], hid (st.modules x)⟩
  | some m =>
    cases c with
    | importCb =>
      show ∃ ti te, ((doImport st o m).modules x) = _
      unfold doImport
      by_cases hmo : m = o
      · rw [if_pos hmo]
        exact ⟨[], [], hid (st.modules x)⟩
      · rw [if_neg hmo, updateMod_modules]
        by_cases hxo : x = o
        · rw [if_pos hxo]
          exact ⟨[m], [], by simp⟩
        · rw [if_neg hxo]
          exact ⟨[], [], hid (st.modules x)⟩
    | excludeCb =>
      show ∃ ti te, ((doExclude st o m).modules x) = _
      unfold doExclude
      by_cases hmo : m = o
      · rw [if_pos hmo]
        exact ⟨[], [], hid (st.modules x)⟩
      · rw [if_neg hmo, updateMod_modules]
        by_cases hxo : x = o
        · rw [if_pos hxo]
          exact ⟨[], [m], by simp⟩
        · rw [if_neg hxo]
          exact ⟨[], [], hid (st.modules x)⟩

/-- How one module state may evolve under resolution: the identity fields
never change, the `resolved` flag is monotone, and the three relation
lists only grow at the end. -/
def ModExtends (a b : ModState) : Prop :=
  b.srcPath = a.srcPath ∧ b.destPath = a.destPath ∧ b.options = a.options ∧
  (a.resolved = true → b.resolved = true) ∧
  (∃ t, b.includes = a.includes ++ t) ∧
  (∃ t, b.imports = a.imports ++ t) ∧
  (∃ t, b.excludes = a.excludes ++ t)

theorem modExtends_refl (a : ModState) : ModExtends a a :=
  ⟨rfl, rfl, rfl, fun h => h, ⟨[], by simp⟩, ⟨[], by simp⟩, ⟨[], by simp⟩⟩

theorem modExtends_trans {a b c : ModState} (h1 : ModExtends a b)
    (h2 : ModExtends b c) : ModExtends a c := by
  obtain ⟨s1, d1, o1, r1, ⟨t1, i1⟩, ⟨u1, m1⟩, ⟨v1, e1⟩⟩ := h1
  obtain ⟨s2, d2, o2, r2, ⟨t2, i2⟩, ⟨u2, m2⟩, ⟨v2, e2⟩⟩ := h2
  refine ⟨s2.trans s1, d2.trans d1, o2.trans o1, fun h => r2 (r1 h),
    ⟨t1 ++ t2, ?_⟩, ⟨u1 ++ u2, ?_⟩, ⟨v1 ++ v2, ?_⟩⟩
  · rw [i2, i1, List.append_assoc]
  · rw [m2, m1, List.append_assoc]
  · rw [e2, e1, List.append_assoc]

/-- The resolver only sets the flag, sheds `requires`/`file`, and lets the
callbacks append relation edges: every module state `ModExtends` its old
self across `resolve` and both internal declaration-processing loops. -/
theorem resolve_extends_all (fuel : Nat) :
    (∀ st m x, ModExtends (st.modules x)
      (((resolveModule fuel st m).1).modules x)) ∧
    (∀ st o r x, ModExtends (st.modules x)
      (((processOne fuel st o r).1).modules x)) ∧
    (∀ st o rs x, ModExtends (st.modules x)
      (((processReqs fuel st o rs).1).modules x)) := by
  have h := resolve_preserves
    (fun a b => ∀ y, ModExtends (a.modules y) (b.modules y))
    (fun s y => modExtends_refl (s.modules y))
    (fun a b c h1 h2 y => modExtends_trans (h1 y) (h2 y))
    (by
      intro st m y
      rw [setResolved_modules]
      by_cases hy : y = m
      · rw [if_pos hy]
        exact ⟨rfl, rfl, rfl, fun _ => rfl, ⟨[], by simp⟩, ⟨[], by simp⟩,
          ⟨[], by simp⟩⟩
      · rw [if_neg hy]
        exact modExtends_refl _)
    (by
      intro st m y
      rw [shedState_modules]
      by_cases hy : y = m
      · rw [if_pos hy]
        exact ⟨rfl, rfl, rfl, fun h => h, ⟨[], by simp⟩, ⟨[], by simp⟩,
          ⟨[], by simp⟩⟩
      · rw [if_neg hy]
        exact modExtends_refl _)
    (by
      intro st o c arg y
      obtain ⟨ti, te, heq⟩ := runCallback_modules st o c arg y
      rw [heq]
      exact ⟨rfl, rfl, rfl, fun h => h, ⟨[], by simp⟩, ⟨ti, rfl⟩, ⟨te, rfl⟩⟩)
    fuel
  exact ⟨fun st m x => h.1 st m x, fun st o r x => h.2.1 st o r x,
    fun st o rs x => h.2.2 st o rs x⟩

/-- An unresolved `resolve` call marks its module resolved: the flag is set
before the declarations run and no later step clears it. -/
theorem resolveModule_marks_resolved (fuel : Nat) (st : PackerState) (m : Nat)
    (h : (st.modules m).resolved = false) :
    (((resolveModule (fuel + 1) st m).1).modules m).resolved = true := by
  rw [resolveModule_succ h]
  show ((shedState (processReqs fuel (setResolved st m) m
      ((st.modules m).requires.getD [])).1 m).modules m).resolved = true
  rw [shedState_modules, if_pos rfl]
  show ((processReqs fuel (setResolved st m) m
      ((st.modules m).requires.getD [])).1.modules m).resolved = true
  have hset : ((setResolved st m).modules m).resolved = true := by
    rw [setResolved_modules, if_pos rfl]
  exact ((resolve_extends_all fuel).2.2 (setResolved st m) m
    ((st.modules m).requires.getD []) m).2.2.2.1 hset

/-- After any `resolve` call, the module's `resolved` flag is true. -/
theorem resolveModule_resolved (fuel : Nat) (st : PackerState) (m : Nat) :
    (((resolveModule (fuel + 1) st m).1).modules m).resolved = true := by
  by_cases h : (st.modules m).resolved = true
  · rw [resolveModule_of_resolved h]
    exact h
  · exact resolveModule_marks_resolved fuel st m (Bool.of_not_eq_true h)

/-- Claim C4: once `resolve` has completed on a module, a second `resolve`
call with any fuel returns immediately: the state — in particular the
`includes`, `imports` and `excludes` lists of every module — is unchanged,
and no callback invocation is recorded. -/
theorem resolve_idempotent (fuel1 fuel2 : Nat) (st : PackerState) (m : Nat) :
    resolveModule fuel2 ((resolveModule (fuel1 + 1) st m).1) m =
      (((resolveModule (fuel1 + 1) st m).1), []) :=
  resolveModule_of_resolved (resolveModule_resolved fuel1 st m)

/-- Claim C7: a pending declaration without a target identity fires its
callback with the null argument and leaves the whole state — every module's
`includes`, `imports` and `excludes` lists included — untouched. -/
theorem null_target_skip (fuel : Nat) (st : PackerState) (o : Nat) (r : Req)
    (h : r.target = none) :
    processOne fuel st o r = (st, [(o, none)]) ∧
    ∀ x, ((processOne fuel st o r).1.modules x) = st.modules x := by
  have hp : isPresent r.target = false := by rw [h]; rfl
  have he : processOne fuel st o r = (st, [(o, none)]) := by
    rw [processOne_absent hp]
    rfl
  exact ⟨he, fun x => by rw [he]⟩

/-- Witness for C7 at a concrete declaration and state. -/
def sampleMod : ModState :=
  { srcPath := none, destPath := none, options := 0, resolved := false,
    requires := some [], file := some 0, includes := [], imports := [],
    excludes := [] }

/-- A system where every module is unresolved with empty relation lists. -/
def sampleSt : PackerState :=
  { modules := fun _ => sampleMod, pathMap := fun _ => 0 }

/-- A system where every module is already resolved. -/
def sampleStResolved : PackerState :=
  { modules := fun _ => { sampleMod with resolved := true },
    pathMap := fun _ => 0 }

theorem null_target_skip_witness :
    processOne 0 sampleSt 0 ⟨none, Callback.importCb⟩ = (sampleSt, [(0, none)]) :=
  (null_target_skip 0 sampleSt 0 ⟨none, Callback.importCb⟩ rfl).1

/-- Claim C9: declaring a dependency on an already-resolved module fails
(the assertion) and never appends a declaration. -/
theorem require_after_resolved_fails (st : PackerState) (m : Nat)
    (t : Option String) (c : Callback)
    (h : (st.modules m).resolved = true) :
    requireOp st m t c = Except.error () := by
  unfold requireOp
  rw [if_pos h]

theorem require_after_resolved_fails_witness :
    requireOp sampleStResolved 0 none Callback.importCb = Except.error () :=
  require_after_resolved_fails sampleStResolved 0 none Callback.importCb rfl

/-- Claim C10: resolving an unresolved module sheds its pending-declaration
list and source-file reference, sets its `resolved` flag, and beyond that
every module state only evolves by `ModExtends`: the identity fields are
untouched and the relation lists only gain whatever the callbacks append. -/
theorem resolve_sheds_state (fuel : Nat) (st : PackerState) (m : Nat)
    (h : (st.modules m).resolved = false) :
    (((resolveModule (fuel + 1) st m).1).modules m).requires = none ∧
    (((resolveModule (fuel + 1) st m).1).modules m).file = none ∧
    (((resolveModule (fuel + 1) st m).1).modules m).resolved = true ∧
    ∀ x, ModExtends (st.modules x)
      (((resolveModule (fuel + 1) st m).1).modules x) := by
  refine ⟨?_, ?_, resolveModule_marks_resolved fuel st m h,
    fun x => (resolve_extends_all (fuel + 1)).1 st m x⟩
  · rw [resolveModule_succ h]
    show ((shedState (processReqs fuel (setResolved st m) m
        ((st.modules m).requires.getD [])).1 m).modules m).requires = none
    rw [shedState_modules, if_pos rfl]
  · rw [resolveModule_succ h]
    show ((shedState (processReqs fuel (setResolved st m) m
        ((st.modules m).requires.getD [])).1 m).modules m).file = none
    rw [shedState_modules, if_pos rfl]

theorem resolve_sheds_state_witness :
    (((resolveModule 1 sampleSt 0).1).modules 0).requires = none ∧
    (((resolveModule 1 sampleSt 0).1).modules 0).file = none ∧
    (((resolveModule 1 sampleSt 0).1).modules 0).resolved = true :=
  ⟨(resolve_sheds_state 0 sampleSt 0 rfl).1,
   (resolve_sheds_state 0 sampleSt 0 rfl).2.1,
   (resolve_sheds_state 0 sampleSt 0 rfl).2.2.1⟩

/-- No module lists itself in its own `includes`, `imports` or `excludes`. -/
def SelfFree (st : PackerState) : Prop :=
  ∀ x, x ∉ (st.modules x).includes ∧ x ∉ (st.modules x).imports ∧
    x ∉ (st.modules x).excludes

/-- `hasInclude` answers true immediately on its own module (`module == this`). -/
theorem hasIncludeF_self (g : Nat → List Nat) (fuel m : Nat) :
    hasIncludeF g fuel m m = true := by
  cases fuel <;> simp [hasIncludeF]

theorem selfFree_runCallback {st : PackerState} (o : Nat) (c : Callback)
    (arg : Option Nat) (h : SelfFree st) : SelfFree (runCallback st o c arg) := by
  have himp : ∀ m, m ≠ o → SelfFree
      (updateMod st o fun s => { s with imports := s.imports ++ [m] }) := by
    intro m hmo x
    rw [updateMod_modules]
    by_cases hxo : x = o
    · rw [if_pos hxo]
      refine ⟨(h x).1, ?_, (h x).2.2⟩
      simp only [List.mem_append, List.mem_singleton]
      rintro ((hmem : x ∈ (st.modules x).imports) | rfl)
      · exact (h x).2.1 hmem
      · exact hmo hxo
    · rw [if_neg hxo]
      exact h x
  have hexc : ∀ m, m ≠ o → SelfFree
      (updateMod st o fun s => { s with excludes := s.excludes ++ [m] }) := by
    intro m hmo x
    rw [updateMod_modules]
    by_cases hxo : x = o
    · rw [if_pos hxo]
      refine ⟨(h x).1, (h x).2.1, ?_⟩
      simp only [List.mem_append, List.mem_singleton]
      rintro ((hmem : x ∈ (st.modules x).excludes) | rfl)
      · exact (h x).2.2 hmem
      · exact hmo hxo
    · rw [if_neg hxo]
      exact h x
  cases arg with
  | none => exact h
  | some m =>
    cases c with
    | importCb =>
      show SelfFree (doImport st o m)
      unfold doImport
      by_cases hmo : m = o
      · rw [if_pos hmo]
        exact h
      · rw [if_neg hmo]
        exact himp m hmo
    | excludeCb =>
      show SelfFree (doExclude st o m)
      unfold doExclude
      by_cases hmo : m = o
      · rw [if_pos hmo]
        exact h
      · rw [if_neg hmo]
        exact hexc m hmo

/-- Claim C8: self-edges are rejected everywhere: `import(self)` and
`exclude(self)` are silent no-ops, `include(self)` returns false through
the cycle check, the resolver therefore preserves self-freeness of all
three lists, and an `include` call never puts a module on its own list. -/
theorem self_edges_rejected :
    (∀ st m, doImport st m m = st) ∧
    (∀ st m, doExclude st m m = st) ∧
    (∀ g fuel m, includeStep g fuel m m = (g, false)) ∧
    (∀ fuel st r, SelfFree st → SelfFree ((resolveModule fuel st r).1)) ∧
    (∀ g fuel t m, (∀ x, x ∉ g x) → ∀ x, x ∉ (includeStep g fuel t m).1 x) := by
  refine ⟨?_, ?_, ?_, ?_, ?_⟩
  · intro st m
    unfold doImport
    rw [if_pos rfl]
  · intro st m
    unfold doExclude
    rw [if_pos rfl]
  · intro g fuel m
    unfold includeStep
    rw [if_pos (hasIncludeF_self g fuel m)]
  · intro fuel st r h
    have hp := resolve_preserves (fun a b => SelfFree a → SelfFree b)
      (fun _ hs => hs)
      (fun _ _ _ h1 h2 hs => h2 (h1 hs))
      (by
        intro st m hs x
        rw [setResolved_modules]
        by_cases hx : x = m
        · rw [if_pos hx]
          exact hs x
        · rw [if_neg hx]
          exact hs x)
      (by
        intro st m hs x
        rw [shedState_modules]
        by_cases hx : x = m
        · rw [if_pos hx]
          exact hs x
        · rw [if_neg hx]
          exact hs x)
      (fun st o c arg hs => selfFree_runCallback o c arg hs)
      fuel
    exact hp.1 st r h
  · intro g fuel t m hg x
    unfold includeStep
    by_cases hc : hasIncludeF g fuel m t = true
    · rw [if_pos hc]
      exact hg x
    · rw [if_neg hc]
      show x ∉ addIncludeEdge g t m x
      unfold addIncludeEdge
      by_cases hx : x = t
      · rw [if_pos hx]
        simp only [List.mem_append, List.mem_singleton]
        rintro (hmem | rfl)
        · exact hg x hmem
        · exact hc (hx ▸ hasIncludeF_self g fuel t)
      · rw [if_neg hx]
        exact hg x

/-- Witness for C8 at concrete states. -/
theorem self_edges_rejected_witness :
    doImport sampleSt 1 1 = sampleSt ∧
    includeStep emptyIncludes 2 1 1 = (emptyIncludes, false) ∧
    SelfFree ((resolveModule 1 sampleSt 0).1) :=
  ⟨self_edges_rejected.1 sampleSt 1,
   self_edges_rejected.2.2.1 emptyIncludes 2 1,
   self_edges_rejected.2.2.2.1 1 sampleSt 0
     (fun x => by
       refine ⟨?_, ?_, ?_⟩ <;> exact List.not_mem_nil x)⟩
